import Mathlib

/-!
Verification of the randovania bit-level configuration codec and of the
patcher-file helpers.

The bitpacking module itself is not part of the source tree (only its test
suite is), so the codec below is modelled from the specification document;
the patcher-file helpers are embedded directly from
`randovania/games/prime/patcher_file.py`.
-/

namespace Spec2Proof

/-! ## Bit-level foundations -/

/-- Modelled from the spec: the number of bits a field with the given domain
size occupies — `ceil(log2 K)` for `K > 1`, and `0` bits for the degenerate
domain size `1` (and for the fatal-precondition case `0`).  Written with a
structural fuel argument so that it evaluates by kernel reduction. -/
def log2ceilAux : Nat → Nat → Nat
  | 0, _ => 0
  | fuel + 1, k => if k ≤ 1 then 0 else log2ceilAux fuel ((k + 1) / 2) + 1

/-- Modelled from the spec: bits needed for a domain of size `domainSize`. -/
def bitsNeeded (domainSize : Nat) : Nat :=
  log2ceilAux domainSize domainSize

/-- MSB-first interpretation of a bit sequence as an unsigned integer. -/
def bitsToNat (bits : List Bool) : Nat :=
  bits.foldl (fun acc b => 2 * acc + (if b then 1 else 0)) 0

/-- MSB-first `width`-bit two-complement-free representation of a natural. -/
def natToBits : Nat → Nat → List Bool
  | 0, _ => []
  | w + 1, v => natToBits w (v / 2) ++ [decide (v % 2 = 1)]

/-- The eight bits of one byte, MSB first. -/
def byteToBits (byte : Nat) : List Bool :=
  natToBits 8 byte

/-- The bit sequence of a whole byte buffer, MSB-first inside each byte. -/
def bytesToBits : List Nat → List Bool
  | [] => []
  | b :: rest => byteToBits b ++ bytesToBits rest

/-- Group a bit sequence into bytes, eight bits at a time (callers pad to a
byte boundary first, so a trailing fragment shorter than a byte is dropped). -/
def bitsToBytes : List Bool → List Nat
  | b0 :: b1 :: b2 :: b3 :: b4 :: b5 :: b6 :: b7 :: rest =>
      bitsToNat [b0, b1, b2, b3, b4, b5, b6, b7] :: bitsToBytes rest
  | _ => []

/-- Modelled from the spec: zero-pad a bitstream to the next whole byte. -/
def padToByte (bits : List Bool) : List Bool :=
  bits ++ List.replicate ((8 - bits.length % 8) % 8) false

theorem natToBits_length (w v : Nat) : (natToBits w v).length = w := by
  induction w generalizing v with
  | zero => rfl
  | succ w ih => simp [natToBits, ih]

theorem bitsToNat_nil : bitsToNat [] = 0 := rfl

theorem bitsToNat_append_singleton (l : List Bool) (b : Bool) :
    bitsToNat (l ++ [b]) = 2 * bitsToNat l + (if b then 1 else 0) := by
  unfold bitsToNat
  rw [List.foldl_append]
  rfl

theorem bitsToNat_natToBits (w v : Nat) :
    bitsToNat (natToBits w v) = v % 2 ^ w := by
  induction w generalizing v with
  | zero => simp [natToBits, bitsToNat, Nat.mod_one]
  | succ w ih =>
    rw [natToBits, bitsToNat_append_singleton, ih]
    have h2 : v % 2 = 0 ∨ v % 2 = 1 := Nat.mod_two_eq_zero_or_one v
    have hmod : v % (2 * 2 ^ w) = v % 2 + 2 * (v / 2 % 2 ^ w) := Nat.mod_mul
    have hpow : (2 : Nat) ^ (w + 1) = 2 * 2 ^ w := by ring
    rw [hpow, hmod]
    rcases h2 with h | h <;> simp [h] <;> omega

theorem bitsToNat_lt (bits : List Bool) : bitsToNat bits < 2 ^ bits.length := by
  have general : ∀ (l : List Bool) (acc : Nat),
      l.foldl (fun acc b => 2 * acc + (if b then 1 else 0)) acc <
        (acc + 1) * 2 ^ l.length := by
    intro l
    induction l with
    | nil => intro acc; simpa using Nat.lt_succ_self acc
    | cons b rest ih =>
      intro acc
      have h := ih (2 * acc + (if b then 1 else 0))
      have hb : (if b then 1 else 0) ≤ 1 := by cases b <;> simp
      calc List.foldl (fun acc b => 2 * acc + (if b then 1 else 0)) acc (b :: rest)
          = List.foldl (fun acc b => 2 * acc + (if b then 1 else 0))
              (2 * acc + (if b then 1 else 0)) rest := rfl
        _ < (2 * acc + (if b then 1 else 0) + 1) * 2 ^ rest.length := h
        _ ≤ (acc + 1) * 2 ^ (b :: rest).length := by
            simp only [List.length_cons, pow_succ]
            nlinarith [Nat.pos_pow_of_pos rest.length (by norm_num : 0 < 2)]
  simpa using general bits 0

theorem natToBits_bitsToNat (bits : List Bool) :
    natToBits bits.length (bitsToNat bits) = bits := by
  induction bits using List.reverseRecOn with
  | nil => rfl
  | append_singleton l b ih =>
    rw [bitsToNat_append_singleton]
    have hlen : (l ++ [b]).length = l.length + 1 := by simp
    rw [hlen, natToBits]
    have hdiv : (2 * bitsToNat l + (if b then 1 else 0)) / 2 = bitsToNat l := by
      cases b <;> simp <;> omega
    have hmod : decide ((2 * bitsToNat l + (if b then 1 else 0)) % 2 = 1) = b := by
      cases b <;> simp <;> omega
    rw [hdiv, hmod, ih]

theorem bytesToBits_length (data : List Nat) :
    (bytesToBits data).length = 8 * data.length := by
  induction data with
  | nil => rfl
  | cons b rest ih =>
    simp [bytesToBits, byteToBits, natToBits_length, ih]
    omega

theorem bytesToBits_append (d₁ d₂ : List Nat) :
    bytesToBits (d₁ ++ d₂) = bytesToBits d₁ ++ bytesToBits d₂ := by
  induction d₁ with
  | nil => rfl
  | cons b rest ih => simp [bytesToBits, ih]

theorem exists_eight_cons (bits : List Bool) (h : 8 ≤ bits.length) :
    ∃ b0 b1 b2 b3 b4 b5 b6 b7 rest,
      bits = b0 :: b1 :: b2 :: b3 :: b4 :: b5 :: b6 :: b7 :: rest := by
  rcases bits with _ | ⟨b0, _ | ⟨b1, _ | ⟨b2, _ | ⟨b3, _ | ⟨b4, _ | ⟨b5,
    _ | ⟨b6, _ | ⟨b7, rest⟩⟩⟩⟩⟩⟩⟩⟩
  all_goals first
    | exact ⟨_, _, _, _, _, _, _, _, _, rfl⟩
    | (exfalso; simp at h)

theorem bytesToBits_bitsToBytes (n : Nat) :
    ∀ bits : List Bool, bits.length = 8 * n →
      bytesToBits (bitsToBytes bits) = bits := by
  induction n with
  | zero =>
    intro bits h
    have : bits = [] := List.eq_nil_of_length_eq_zero (by omega)
    subst this
    rfl
  | succ n ih =>
    intro bits h
    obtain ⟨b0, b1, b2, b3, b4, b5, b6, b7, rest, rfl⟩ :=
      exists_eight_cons bits (by omega)
    have hrest : rest.length = 8 * n := by
      simp at h
      omega
    have step : bitsToBytes (b0 :: b1 :: b2 :: b3 :: b4 :: b5 :: b6 :: b7 :: rest)
        = bitsToNat [b0, b1, b2, b3, b4, b5, b6, b7] :: bitsToBytes rest := rfl
    rw [step, bytesToBits, ih rest hrest, byteToBits]
    have hl : ([b0, b1, b2, b3, b4, b5, b6, b7] : List Bool).length = 8 := rfl
    rw [← hl, natToBits_bitsToNat]
    simp

theorem padToByte_length_dvd (bits : List Bool) :
    ∃ n, (padToByte bits).length = 8 * n := by
  have h : (padToByte bits).length = bits.length + (8 - bits.length % 8) % 8 := by
    simp [padToByte]
  refine ⟨(bits.length + (8 - bits.length % 8) % 8) / 8, ?_⟩
  rw [h]
  omega

theorem take_append_length {α : Type} (l₁ l₂ : List α) (n : Nat)
    (h : l₁.length = n) : (l₁ ++ l₂).take n = l₁ := by
  subst h
  exact List.take_left _ _

theorem drop_append_length {α : Type} (l₁ l₂ : List α) (n : Nat)
    (h : l₁.length = n) : (l₁ ++ l₂).drop n = l₂ := by
  subst h
  exact List.drop_left _ _

theorem log2ceilAux_le_pow :
    ∀ fuel k : Nat, k ≤ fuel → k ≤ 2 ^ log2ceilAux fuel k := by
  intro fuel
  induction fuel with
  | zero =>
    intro k h
    have : k = 0 := by omega
    simp [this]
  | succ fuel ih =>
    intro k h
    by_cases hk : k ≤ 1
    · have : log2ceilAux (fuel + 1) k = 0 := by simp [log2ceilAux, hk]
      rw [this]
      omega
    · have hstep : log2ceilAux (fuel + 1) k = log2ceilAux fuel ((k + 1) / 2) + 1 := by
        simp [log2ceilAux, hk]
      have hrec : (k + 1) / 2 ≤ fuel := by omega
      have hih := ih ((k + 1) / 2) hrec
      rw [hstep, pow_succ]
      omega

theorem log2ceilAux_eq_clog :
    ∀ fuel k : Nat, k ≤ fuel → log2ceilAux fuel k = Nat.clog 2 k := by
  intro fuel
  induction fuel with
  | zero =>
    intro k h
    have : k = 0 := by omega
    simp [this, log2ceilAux, Nat.clog]
  | succ fuel ih =>
    intro k h
    by_cases hk : k ≤ 1
    · have h0 : log2ceilAux (fuel + 1) k = 0 := by simp [log2ceilAux, hk]
      have h1 : Nat.clog 2 k = 0 := Nat.clog_of_right_le_one hk 2
      rw [h0, h1]
    · have hstep : log2ceilAux (fuel + 1) k = log2ceilAux fuel ((k + 1) / 2) + 1 := by
        simp [log2ceilAux, hk]
      have hclog : Nat.clog 2 k = Nat.clog 2 ((k + 1) / 2) + 1 := by
        have := Nat.clog_of_two_le (b := 2) (n := k) (by norm_num) (by omega)
        simpa using this
      have hrec : (k + 1) / 2 ≤ fuel := by omega
      rw [hstep, hclog, ih _ hrec]

theorem bitsNeeded_le_pow (k : Nat) : k ≤ 2 ^ bitsNeeded k :=
  log2ceilAux_le_pow k k le_rfl

theorem bitsNeeded_eq_clog (k : Nat) : bitsNeeded k = Nat.clog 2 k :=
  log2ceilAux_eq_clog k k le_rfl

/-! ## The Bit Decoder -/

/-- Modelled from the spec: the error raised when a decode call requests more
bits than remain in the buffer. -/
inductive BitPackError where
  | underflow
deriving DecidableEq

/-- Modelled from the spec: the Bit Decoder owns a read-only byte buffer and a
monotonically advancing bit cursor, starting at bit offset 0. -/
structure BitPackDecoder where
  data : List Nat
  pos : Nat
deriving DecidableEq

/-- Modelled from the spec: `decode(domain_size)` consumes
`ceil(log2 domain_size)` bits from the current cursor position (MSB-first),
interprets them as an unsigned integer, advances the cursor by that many bits
and returns the integer; it raises `UnderflowError` when fewer bits remain
than required. -/
def BitPackDecoder.decode (d : BitPackDecoder) (domainSize : Nat) :
    Except BitPackError (Nat × BitPackDecoder) :=
  if d.pos + bitsNeeded domainSize ≤ 8 * d.data.length then
    Except.ok
      (bitsToNat (((bytesToBits d.data).drop d.pos).take (bitsNeeded domainSize)),
        { data := d.data, pos := d.pos + bitsNeeded domainSize })
  else
    Except.error BitPackError.underflow

theorem decode_reads (d : BitPackDecoder) (k v : Nat) (rest : List Bool)
    (hv : v < 2 ^ bitsNeeded k)
    (hpos : d.pos ≤ 8 * d.data.length)
    (hbits : (bytesToBits d.data).drop d.pos = natToBits (bitsNeeded k) v ++ rest) :
    d.decode k = Except.ok (v, ⟨d.data, d.pos + bitsNeeded k⟩) := by
  have hlen := congrArg List.length hbits
  simp [bytesToBits_length, natToBits_length] at hlen
  have hw : d.pos + bitsNeeded k ≤ 8 * d.data.length := by omega
  rw [BitPackDecoder.decode, if_pos hw, hbits,
    take_append_length _ _ _ (natToBits_length _ _),
    bitsToNat_natToBits, Nat.mod_eq_of_lt hv]

/-! ## The Packable Value protocol -/

mutual
/-- Modelled from the spec: a Packable Value is either a primitive field — an
enumeration with a finite domain size together with the ordinal of the chosen
value — or a composite built from an ordered sequence of nested Packable
Values (the value's fixed schema tree). -/
inductive BitPackValue where
  | field (domainSize value : Nat) : BitPackValue
  | composite (fields : BitPackFields) : BitPackValue
/-- Modelled from the spec: the ordered field sequence of a composite
Packable Value. -/
inductive BitPackFields where
  | nil : BitPackFields
  | cons (head : BitPackValue) (tail : BitPackFields) : BitPackFields
end

mutual
/-- Modelled from the spec: `bit_pack_format` — the ordered schema of field
domain descriptors, with nested packable fields recursively expanded
(order-preserving flattening). -/
def bit_pack_format : BitPackValue → List Nat
  | .field k _ => [k]
  | .composite fs => bit_pack_format_fields fs
def bit_pack_format_fields : BitPackFields → List Nat
  | .nil => []
  | .cons f fs => bit_pack_format f ++ bit_pack_format_fields fs
end

mutual
/-- Modelled from the spec: `bit_pack_arguments` — the concrete integers to
encode, in the identical order as `bit_pack_format`. -/
def bit_pack_arguments : BitPackValue → List Nat
  | .field _ v => [v]
  | .composite fs => bit_pack_arguments_fields fs
def bit_pack_arguments_fields : BitPackFields → List Nat
  | .nil => []
  | .cons f fs => bit_pack_arguments f ++ bit_pack_arguments_fields fs
end

mutual
/-- Modelled from the spec: the bitstream contributed by one Packable Value —
each field's bits in schema order, nested values spliced contiguously at
their position. -/
def packBits : BitPackValue → List Bool
  | .field k v => natToBits (bitsNeeded k) v
  | .composite fs => packBitsFields fs
def packBitsFields : BitPackFields → List Bool
  | .nil => []
  | .cons f fs => packBits f ++ packBitsFields fs
end

mutual
/-- Modelled from the spec: a legally constructible instance — every
enumeration field's ordinal lies strictly inside its domain. -/
def validValue : BitPackValue → Bool
  | .field k v => decide (v < k)
  | .composite fs => validFields fs
def validFields : BitPackFields → Bool
  | .nil => true
  | .cons f fs => validValue f && validFields fs
end

mutual
/-- Modelled from the spec: `bit_pack_unpack` — given a Decoder, performs
exactly the reads implied by the schema shape of the given value (its stored
field ordinals are ignored): one `decode` call per primitive field, a
recursive call per nested packable field, reconstructing an instance. -/
def bit_pack_unpack :
    BitPackValue → BitPackDecoder → Except BitPackError (BitPackValue × BitPackDecoder)
  | .field k _, d =>
    match d.decode k with
    | .ok (v, d') => .ok (.field k v, d')
    | .error e => .error e
  | .composite fs, d =>
    match bit_pack_unpack_fields fs d with
    | .ok (fs', d') => .ok (.composite fs', d')
    | .error e => .error e
def bit_pack_unpack_fields :
    BitPackFields → BitPackDecoder → Except BitPackError (BitPackFields × BitPackDecoder)
  | .nil, d => .ok (.nil, d)
  | .cons f fs, d =>
    match bit_pack_unpack f d with
    | .ok (f', d') =>
      match bit_pack_unpack_fields fs d' with
      | .ok (fs', d'') => .ok (.cons f' fs', d'')
      | .error e => .error e
    | .error e => .error e
end

/-- Modelled from the spec: the pack driver's bit accumulation — walk the two
parallel sequences of field descriptors and arguments, emitting each field's
value in the bit width determined by its domain size. -/
def packFieldBits : List Nat → List Nat → List Bool
  | k :: ks, v :: vs => natToBits (bitsNeeded k) v ++ packFieldBits ks vs
  | _, _ => []

/-- Modelled from the spec: the top-level pack driver `pack_value` — obtain
the format and argument sequences, accumulate each field's bits in order,
zero-pad the final partial byte and return the resulting byte sequence. -/
def pack_value (v : BitPackValue) : List Nat :=
  bitsToBytes (padToByte (packFieldBits (bit_pack_format v) (bit_pack_arguments v)))

/-- Repeated `decode` calls against a flat schema of domain sizes, returning
the decoded ordinals in order (the caller-side replay of a schema). -/
def decodeSchema :
    List Nat → BitPackDecoder → Except BitPackError (List Nat × BitPackDecoder)
  | [], d => .ok ([], d)
  | k :: ks, d =>
    match d.decode k with
    | .ok (v, d') =>
      match decodeSchema ks d' with
      | .ok (vs, d'') => .ok (v :: vs, d'')
      | .error e => .error e
    | .error e => .error e

/-- The minimum number of bits demanded by a flat schema. -/
def schemaBits : List Nat → Nat
  | [] => 0
  | k :: ks => bitsNeeded k + schemaBits ks

/-- A flat composite: one primitive field per (domain size, ordinal) pair. -/
def mkFields : List Nat → List Nat → BitPackFields
  | k :: ks, v :: vs => .cons (.field k v) (mkFields ks vs)
  | _, _ => .nil

/-! ## Codec lemmas -/

mutual
theorem format_args_length :
    ∀ v : BitPackValue, (bit_pack_format v).length = (bit_pack_arguments v).length
  | .field _ _ => rfl
  | .composite fs => by
    rw [bit_pack_format, bit_pack_arguments]
    exact format_args_length_fields fs
theorem format_args_length_fields :
    ∀ fs : BitPackFields,
      (bit_pack_format_fields fs).length = (bit_pack_arguments_fields fs).length
  | .nil => rfl
  | .cons f fs => by
    rw [bit_pack_format_fields, bit_pack_arguments_fields]
    simp only [List.length_append]
    rw [format_args_length f, format_args_length_fields fs]
end

theorem packFieldBits_append (ks₁ vs₁ ks₂ vs₂ : List Nat)
    (h : ks₁.length = vs₁.length) :
    packFieldBits (ks₁ ++ ks₂) (vs₁ ++ vs₂) =
      packFieldBits ks₁ vs₁ ++ packFieldBits ks₂ vs₂ := by
  induction ks₁ generalizing vs₁ with
  | nil =>
    have : vs₁ = [] := List.eq_nil_of_length_eq_zero (by simpa using h.symm)
    subst this
    simp [packFieldBits]
  | cons k ks ih =>
    cases vs₁ with
    | nil => simp at h
    | cons v vs =>
      simp only [List.cons_append, packFieldBits, List.append_eq]
      rw [ih vs (by simpa using h), List.append_assoc]

mutual
theorem packFieldBits_eq :
    ∀ v : BitPackValue,
      packFieldBits (bit_pack_format v) (bit_pack_arguments v) = packBits v
  | .field k v => by
    simp [bit_pack_format, bit_pack_arguments, packFieldBits, packBits]
  | .composite fs => by
    rw [bit_pack_format, bit_pack_arguments, packBits]
    exact packFieldBits_eq_fields fs
theorem packFieldBits_eq_fields :
    ∀ fs : BitPackFields,
      packFieldBits (bit_pack_format_fields fs) (bit_pack_arguments_fields fs) =
        packBitsFields fs
  | .nil => rfl
  | .cons f fs => by
    rw [bit_pack_format_fields, bit_pack_arguments_fields,
      packFieldBits_append _ _ _ _ (format_args_length f),
      packFieldBits_eq f, packFieldBits_eq_fields fs, packBitsFields]
end

mutual
theorem unpack_reads :
    ∀ (v : BitPackValue) (d : BitPackDecoder) (rest : List Bool),
      validValue v = true → d.pos ≤ 8 * d.data.length →
      (bytesToBits d.data).drop d.pos = packBits v ++ rest →
      bit_pack_unpack v d =
        Except.ok (v, ⟨d.data, d.pos + (packBits v).length⟩)
  | .field k v, d, rest, hval, hpos, hbits => by
    have hv : v < k := by simpa [validValue] using hval
    have hvp : v < 2 ^ bitsNeeded k := lt_of_lt_of_le hv (bitsNeeded_le_pow k)
    have hdec := decode_reads d k v rest hvp hpos (by simpa [packBits] using hbits)
    rw [bit_pack_unpack, hdec]
    simp [packBits, natToBits_length]
  | .composite fs, d, rest, hval, hpos, hbits => by
    have h := unpack_reads_fields fs d rest (by simpa [validValue] using hval)
      hpos (by simpa [packBits] using hbits)
    rw [bit_pack_unpack, h]
    simp [packBits]
theorem unpack_reads_fields :
    ∀ (fs : BitPackFields) (d : BitPackDecoder) (rest : List Bool),
      validFields fs = true → d.pos ≤ 8 * d.data.length →
      (bytesToBits d.data).drop d.pos = packBitsFields fs ++ rest →
      bit_pack_unpack_fields fs d =
        Except.ok (fs, ⟨d.data, d.pos + (packBitsFields fs).length⟩)
  | .nil, d, _, _, _, _ => by
    simp [bit_pack_unpack_fields, packBitsFields]
  | .cons f fs, d, rest, hval, hpos, hbits => by
    have hvf : validValue f = true ∧ validFields fs = true := by
      simpa [validFields, Bool.and_eq_true] using hval
    have hbits' : (bytesToBits d.data).drop d.pos =
        packBits f ++ (packBitsFields fs ++ rest) := by
      simpa [packBitsFields, List.append_assoc] using hbits
    have h1 := unpack_reads f d (packBitsFields fs ++ rest) hvf.1 hpos hbits'
    have hlen := congrArg List.length hbits'
    simp [bytesToBits_length] at hlen
    have hpos' : d.pos + (packBits f).length ≤ 8 * d.data.length := by omega
    have hdrop : (bytesToBits d.data).drop (d.pos + (packBits f).length) =
        packBitsFields fs ++ rest := by
      rw [← List.drop_drop, hbits', drop_append_length _ _ _ rfl]
    have h2 := unpack_reads_fields fs ⟨d.data, d.pos + (packBits f).length⟩ rest
      hvf.2 hpos' hdrop
    rw [bit_pack_unpack_fields, h1]
    simp [h2, packBitsFields, Nat.add_assoc]
end

theorem bytesToBits_pack_value (v : BitPackValue) :
    bytesToBits (pack_value v) =
      packBits v ++ List.replicate ((8 - (packBits v).length % 8) % 8) false := by
  obtain ⟨n, hn⟩ :=
    padToByte_length_dvd (packFieldBits (bit_pack_format v) (bit_pack_arguments v))
  rw [pack_value, bytesToBits_bitsToBytes n _ hn, padToByte, packFieldBits_eq]

theorem decodeSchema_reads :
    ∀ (ks vs : List Nat) (d : BitPackDecoder) (rest : List Bool),
      List.Forall₂ (fun v k => v < k) vs ks →
      d.pos ≤ 8 * d.data.length →
      (bytesToBits d.data).drop d.pos = packFieldBits ks vs ++ rest →
      decodeSchema ks d =
        Except.ok (vs, ⟨d.data, d.pos + (packFieldBits ks vs).length⟩) := by
  intro ks vs d rest hf
  induction hf generalizing d rest with
  | nil =>
    intro hpos hbits
    simp [decodeSchema, packFieldBits]
  | cons hv hf ih =>
    intro hpos hbits
    rename_i v k vs' ks'
    have hvp : v < 2 ^ bitsNeeded k := lt_of_lt_of_le hv (bitsNeeded_le_pow k)
    have hbits' : (bytesToBits d.data).drop d.pos =
        natToBits (bitsNeeded k) v ++ (packFieldBits ks' vs' ++ rest) := by
      simpa [packFieldBits, List.append_assoc] using hbits
    have hdec := decode_reads d k v (packFieldBits ks' vs' ++ rest) hvp hpos hbits'
    have hlen := congrArg List.length hbits'
    simp [bytesToBits_length, natToBits_length] at hlen
    have hpos' : d.pos + bitsNeeded k ≤ 8 * d.data.length := by omega
    have hdrop : (bytesToBits d.data).drop (d.pos + bitsNeeded k) =
        packFieldBits ks' vs' ++ rest := by
      rw [← List.drop_drop, hbits',
        drop_append_length _ _ _ (natToBits_length _ _)]
    have h2 := ih ⟨d.data, d.pos + bitsNeeded k⟩ rest hpos' hdrop
    rw [decodeSchema, hdec]
    simp [h2, packFieldBits, natToBits_length, Nat.add_assoc]

theorem decodeSchema_underflow :
    ∀ (ks : List Nat) (d : BitPackDecoder),
      d.pos ≤ 8 * d.data.length →
      8 * d.data.length < d.pos + schemaBits ks →
      decodeSchema ks d = Except.error BitPackError.underflow := by
  intro ks
  induction ks with
  | nil =>
    intro d h1 h2
    exfalso
    simp [schemaBits] at h2
    omega
  | cons k ks ih =>
    intro d h1 h2
    simp [schemaBits] at h2
    by_cases hk : d.pos + bitsNeeded k ≤ 8 * d.data.length
    · have hdec : d.decode k = Except.ok
          (bitsToNat (((bytesToBits d.data).drop d.pos).take (bitsNeeded k)),
            ⟨d.data, d.pos + bitsNeeded k⟩) := by
        rw [BitPackDecoder.decode, if_pos hk]
      have hrec := ih ⟨d.data, d.pos + bitsNeeded k⟩ hk (by simp; omega)
      rw [decodeSchema, hdec]
      simp [hrec]
    · have hdec : d.decode k = Except.error BitPackError.underflow := by
        rw [BitPackDecoder.decode, if_neg hk]
      rw [decodeSchema, hdec]

theorem schemaBits_append (ks₁ ks₂ : List Nat) :
    schemaBits (ks₁ ++ ks₂) = schemaBits ks₁ + schemaBits ks₂ := by
  induction ks₁ with
  | nil => simp [schemaBits]
  | cons k ks ih => simp [schemaBits, ih]; omega

/-- The minimum number of bits `bit_pack_unpack` demands for a value shape. -/
def valueBits (v : BitPackValue) : Nat :=
  schemaBits (bit_pack_format v)

mutual
theorem unpack_ok_pos :
    ∀ (v : BitPackValue) (d : BitPackDecoder) (r : BitPackValue × BitPackDecoder),
      d.pos ≤ 8 * d.data.length → bit_pack_unpack v d = Except.ok r →
      r.2 = ⟨d.data, d.pos + valueBits v⟩ ∧
        d.pos + valueBits v ≤ 8 * d.data.length
  | .field k v, d, r, hpos, hok => by
    by_cases hk : d.pos + bitsNeeded k ≤ 8 * d.data.length
    · have hdec : d.decode k = Except.ok
          (bitsToNat (((bytesToBits d.data).drop d.pos).take (bitsNeeded k)),
            ⟨d.data, d.pos + bitsNeeded k⟩) := by
        rw [BitPackDecoder.decode, if_pos hk]
      rw [bit_pack_unpack, hdec] at hok
      simp only [Except.ok.injEq] at hok
      constructor
      · rw [← hok]
        simp [valueBits, bit_pack_format, schemaBits]
      · simp [valueBits, bit_pack_format, schemaBits]
        omega
    · have hdec : d.decode k = Except.error BitPackError.underflow := by
        rw [BitPackDecoder.decode, if_neg hk]
      rw [bit_pack_unpack, hdec] at hok
      exact absurd hok (by simp)
  | .composite fs, d, r, hpos, hok => by
    rw [bit_pack_unpack] at hok
    cases h : bit_pack_unpack_fields fs d with
    | ok p =>
      rw [h] at hok
      simp only [Except.ok.injEq] at hok
      have := unpack_fields_ok_pos fs d p hpos h
      constructor
      · rw [← hok]
        simpa [valueBits, bit_pack_format] using this.1
      · simpa [valueBits, bit_pack_format] using this.2
    | error e =>
      rw [h] at hok
      exact absurd hok (by simp)
theorem unpack_fields_ok_pos :
    ∀ (fs : BitPackFields) (d : BitPackDecoder) (r : BitPackFields × BitPackDecoder),
      d.pos ≤ 8 * d.data.length → bit_pack_unpack_fields fs d = Except.ok r →
      r.2 = ⟨d.data, d.pos + schemaBits (bit_pack_format_fields fs)⟩ ∧
        d.pos + schemaBits (bit_pack_format_fields fs) ≤ 8 * d.data.length
  | .nil, d, r, hpos, hok => by
    rw [bit_pack_unpack_fields] at hok
    simp only [Except.ok.injEq] at hok
    constructor
    · rw [← hok]
      simp [bit_pack_format_fields, schemaBits]
    · simp [bit_pack_format_fields, schemaBits]
      omega
  | .cons f fs, d, r, hpos, hok => by
    rw [bit_pack_unpack_fields] at hok
    cases h1 : bit_pack_unpack f d with
    | ok p1 =>
      rw [h1] at hok
      have hp1 := unpack_ok_pos f d p1 hpos h1
      cases h2 : bit_pack_unpack_fields fs p1.2 with
      | ok p2 =>
        have hpos1 : p1.2.pos ≤ 8 * p1.2.data.length := by
          rw [hp1.1]
          exact hp1.2
        have hp2 := unpack_fields_ok_pos fs p1.2 p2 hpos1 h2
        rw [hp1.1] at hp2
        simp only at hp2
        obtain ⟨p1a, p1b⟩ := p1
        obtain ⟨p2a, p2b⟩ := p2
        simp only [h2] at hok
        simp only [Except.ok.injEq] at hok
        constructor
        · rw [← hok]
          simp only at hp2
          rw [hp2.1]
          simp [bit_pack_format_fields, schemaBits_append, valueBits, Nat.add_assoc]
        · have := hp2.2
          simp [bit_pack_format_fields, schemaBits_append, valueBits, Nat.add_assoc] at this ⊢
          omega
      | error e =>
        simp only [h2] at hok
        exact absurd hok (by simp)
    | error e =>
      rw [h1] at hok
      exact absurd hok (by simp)
end

mutual
theorem unpack_underflow :
    ∀ (v : BitPackValue) (d : BitPackDecoder),
      d.pos ≤ 8 * d.data.length →
      8 * d.data.length < d.pos + valueBits v →
      bit_pack_unpack v d = Except.error BitPackError.underflow
  | .field k v, d, hpos, hlt => by
    have hk : ¬(d.pos + bitsNeeded k ≤ 8 * d.data.length) := by
      simp [valueBits, bit_pack_format, schemaBits] at hlt
      omega
    have hdec : d.decode k = Except.error BitPackError.underflow := by
      rw [BitPackDecoder.decode, if_neg hk]
    rw [bit_pack_unpack, hdec]
  | .composite fs, d, hpos, hlt => by
    have h := unpack_fields_underflow fs d hpos
      (by simpa [valueBits, bit_pack_format] using hlt)
    rw [bit_pack_unpack, h]
theorem unpack_fields_underflow :
    ∀ (fs : BitPackFields) (d : BitPackDecoder),
      d.pos ≤ 8 * d.data.length →
      8 * d.data.length < d.pos + schemaBits (bit_pack_format_fields fs) →
      bit_pack_unpack_fields fs d = Except.error BitPackError.underflow
  | .nil, d, hpos, hlt => by
    exfalso
    simp [bit_pack_format_fields, schemaBits] at hlt
    omega
  | .cons f fs, d, hpos, hlt => by
    simp only [bit_pack_format_fields, schemaBits_append] at hlt
    cases h1 : bit_pack_unpack f d with
    | ok p1 =>
      obtain ⟨p1a, p1b⟩ := p1
      have hp1 := unpack_ok_pos f d (p1a, p1b) hpos h1
      simp only at hp1
      have hpos1 : p1b.pos ≤ 8 * p1b.data.length := by
        rw [hp1.1]
        exact hp1.2
      have hrec := unpack_fields_underflow fs p1b hpos1
        (by rw [hp1.1]; simp [valueBits] at hlt ⊢; omega)
      rw [bit_pack_unpack_fields, h1]
      simp [hrec]
    | error e =>
      cases e
      rw [bit_pack_unpack_fields, h1]
end

theorem mkFields_packBits :
    ∀ ks vs : List Nat, ks.length = vs.length →
      packBitsFields (mkFields ks vs) = packFieldBits ks vs := by
  intro ks
  induction ks with
  | nil =>
    intro vs h
    have : vs = [] := List.eq_nil_of_length_eq_zero (by simpa using h.symm)
    subst this
    rfl
  | cons k ks ih =>
    intro vs h
    cases vs with
    | nil => simp at h
    | cons v vs =>
      simp only [mkFields, packBitsFields, packBits, packFieldBits]
      rw [ih vs (by simpa using h)]

theorem mkFields_valid :
    ∀ (ks vs : List Nat), List.Forall₂ (fun v k => v < k) vs ks →
      validFields (mkFields ks vs) = true := by
  intro ks vs h
  induction h with
  | nil => rfl
  | cons hv h ih =>
    simp only [mkFields, validFields, validValue, Bool.and_eq_true,
      decide_eq_true_eq]
    exact ⟨hv, ih⟩

/-! ## Claims about the codec -/

/-- C1: Round-trip law — for every Packable Value shape `v` whose field
ordinals are all legal for their domains (including nested composites at any
depth), running `bit_pack_unpack` on a fresh Decoder constructed over
`pack_value v` returns a value equal to `v` (with the cursor advanced over
exactly the encoded bits, before the final padding). -/
theorem round_trip_law (v : BitPackValue) (hv : validValue v = true) :
    bit_pack_unpack v ⟨pack_value v, 0⟩ =
      Except.ok (v, ⟨pack_value v, (packBits v).length⟩) := by
  have h := unpack_reads v ⟨pack_value v, 0⟩
    (List.replicate ((8 - (packBits v).length % 8) % 8) false) hv (by simp)
    (by simpa using bytesToBits_pack_value v)
  simpa using h

theorem round_trip_law_witness :
    validValue (BitPackValue.composite (.cons (.field 4 1)
      (.cons (.composite (.cons (.field 3 0) (.cons (.field 2 1) .nil)))
        .nil))) = true ∧
    bit_pack_unpack (BitPackValue.composite (.cons (.field 4 1)
        (.cons (.composite (.cons (.field 3 0) (.cons (.field 2 1) .nil)))
          .nil)))
      ⟨pack_value (BitPackValue.composite (.cons (.field 4 1)
        (.cons (.composite (.cons (.field 3 0) (.cons (.field 2 1) .nil)))
          .nil))), 0⟩ =
      Except.ok (BitPackValue.composite (.cons (.field 4 1)
        (.cons (.composite (.cons (.field 3 0) (.cons (.field 2 1) .nil)))
          .nil)),
        ⟨pack_value (BitPackValue.composite (.cons (.field 4 1)
          (.cons (.composite (.cons (.field 3 0) (.cons (.field 2 1) .nil)))
            .nil))),
          (packBits (BitPackValue.composite (.cons (.field 4 1)
            (.cons (.composite (.cons (.field 3 0) (.cons (.field 2 1) .nil)))
              .nil)))).length⟩) :=
  ⟨by decide, round_trip_law _ (by decide)⟩

/-- C2 (amended): Decoder.decode contract — `bitsNeeded` is exactly
`ceil(log2 domain_size)` (`Nat.clog 2`); for `domain_size > 1` with enough
bits remaining, `decode` consumes exactly that many bits starting at the
cursor, interprets them MSB-first as an unsigned integer, advances the cursor
by exactly that many bits, and returns an integer in
`[0, 2 ^ ceil(log2 domain_size))` (not necessarily in `[0, domain_size)` for
adversarial buffers); for `domain_size = 1` it consumes 0 bits and returns 0. -/
theorem decode_contract :
    (∀ k : Nat, bitsNeeded k = Nat.clog 2 k) ∧
    (∀ (d : BitPackDecoder) (k : Nat), 1 < k →
      d.pos + bitsNeeded k ≤ 8 * d.data.length →
      d.decode k = Except.ok
        (bitsToNat (((bytesToBits d.data).drop d.pos).take (bitsNeeded k)),
          ⟨d.data, d.pos + bitsNeeded k⟩) ∧
      bitsToNat (((bytesToBits d.data).drop d.pos).take (bitsNeeded k)) <
        2 ^ bitsNeeded k) ∧
    (∀ d : BitPackDecoder, d.pos ≤ 8 * d.data.length →
      d.decode 1 = Except.ok (0, ⟨d.data, d.pos⟩)) := by
  refine ⟨bitsNeeded_eq_clog, ?_, ?_⟩
  · intro d k _ hle
    constructor
    · rw [BitPackDecoder.decode, if_pos hle]
    · have hlen : (((bytesToBits d.data).drop d.pos).take (bitsNeeded k)).length =
          bitsNeeded k := by
        simp [List.length_take, List.length_drop, bytesToBits_length]
        omega
      have := bitsToNat_lt (((bytesToBits d.data).drop d.pos).take (bitsNeeded k))
      rwa [hlen] at this
  · intro d hle
    have h1 : bitsNeeded 1 = 0 := rfl
    rw [BitPackDecoder.decode, h1, if_pos (by omega)]
    simp [bitsToNat]

theorem decode_contract_witness :
    BitPackDecoder.decode ⟨[72], 0⟩ 4 = Except.ok
      (bitsToNat (((bytesToBits [72]).drop 0).take (bitsNeeded 4)),
        ⟨[72], 0 + bitsNeeded 4⟩) ∧
    BitPackDecoder.decode ⟨[72], 5⟩ 1 = Except.ok (0, ⟨[72], 5⟩) :=
  ⟨(decode_contract.2.1 ⟨[72], 0⟩ 4 (by decide) (by decide)).1,
    decode_contract.2.2 ⟨[72], 5⟩ (by decide)⟩

/-- C2 counterexample: as literally stated, `decode(domain_size)` does not
always return an integer in `[0, domain_size)`: decoding domain size 3 from
the all-ones buffer `0xFF` consumes 2 bits and returns 3, which is not below
3.  The raw bit pattern is returned unvalidated. -/
theorem decode_range_counterexample :
    BitPackDecoder.decode ⟨[255], 0⟩ 3 = Except.ok (3, ⟨[255], 2⟩) ∧
      ¬(3 < 3) :=
  ⟨rfl, by decide⟩

/-- C3: Underflow detection — a primitive decode that needs more bits than
remain raises `UnderflowError`; replaying any flat schema against a byte
buffer shorter than the schema's minimum demands raises `UnderflowError`;
and `bit_pack_unpack` for any value shape over a fresh Decoder on a too-short
buffer surfaces `UnderflowError` rather than returning an instance. -/
theorem underflow_detection :
    (∀ (d : BitPackDecoder) (k : Nat),
      8 * d.data.length < d.pos + bitsNeeded k →
      d.decode k = Except.error BitPackError.underflow) ∧
    (∀ ks data : List Nat, 8 * data.length < schemaBits ks →
      decodeSchema ks ⟨data, 0⟩ = Except.error BitPackError.underflow) ∧
    (∀ (v : BitPackValue) (data : List Nat), 8 * data.length < valueBits v →
      bit_pack_unpack v ⟨data, 0⟩ = Except.error BitPackError.underflow) := by
  refine ⟨?_, ?_, ?_⟩
  · intro d k h
    rw [BitPackDecoder.decode, if_neg (by omega)]
  · intro ks data h
    exact decodeSchema_underflow ks ⟨data, 0⟩ (by simp) (by simpa using h)
  · intro v data h
    exact unpack_underflow v ⟨data, 0⟩ (by simp) (by simpa using h)

theorem underflow_detection_witness :
    BitPackDecoder.decode ⟨[], 0⟩ 2 = Except.error BitPackError.underflow ∧
    decodeSchema [4, 3, 2] ⟨[], 0⟩ = Except.error BitPackError.underflow ∧
    bit_pack_unpack (BitPackValue.composite (.cons (.field 4 1)
        (.cons (.field 3 0) (.cons (.field 2 1) .nil)))) ⟨[], 0⟩ =
      Except.error BitPackError.underflow :=
  ⟨underflow_detection.1 ⟨[], 0⟩ 2 (by decide),
    underflow_detection.2.1 [4, 3, 2] [] (by decide),
    underflow_detection.2.2 _ [] (by decide)⟩

/-- C4: Determinism of encoding — `pack_value` is a pure function of the
value's field schema and argument sequences: any two values that present the
same `bit_pack_format` and `bit_pack_arguments` sequences encode to
byte-identical output; in particular encoding the same logical value twice
yields the same byte sequence. -/
theorem pack_value_deterministic (v w : BitPackValue)
    (hf : bit_pack_format v = bit_pack_format w)
    (ha : bit_pack_arguments v = bit_pack_arguments w) :
    pack_value v = pack_value w := by
  rw [pack_value, pack_value, hf, ha]

theorem pack_value_deterministic_witness :
    bit_pack_format (BitPackValue.composite (.cons (.field 4 1)
        (.cons (.field 3 0) .nil))) =
      bit_pack_format (BitPackValue.composite (.cons (.composite
        (.cons (.field 4 1) .nil)) (.cons (.field 3 0) .nil))) ∧
    bit_pack_arguments (BitPackValue.composite (.cons (.field 4 1)
        (.cons (.field 3 0) .nil))) =
      bit_pack_arguments (BitPackValue.composite (.cons (.composite
        (.cons (.field 4 1) .nil)) (.cons (.field 3 0) .nil))) ∧
    pack_value (BitPackValue.composite (.cons (.field 4 1)
        (.cons (.field 3 0) .nil))) =
      pack_value (BitPackValue.composite (.cons (.composite
        (.cons (.field 4 1) .nil)) (.cons (.field 3 0) .nil))) :=
  ⟨by decide, by decide, pack_value_deterministic _ _ (by decide) (by decide)⟩

/-- C5: Concrete layout scenario — the schema `[4, 3, 2]` with ordinals
`[1, 0, 1]` packs MSB-first to the bits `01 00 1`, zero-padded to the single
byte `0b01001000` (72); decoding that byte with three decode calls against
the same schema reproduces the ordinal sequence `[1, 0, 1]`. -/
theorem concrete_layout_scenario :
    pack_value (BitPackValue.composite (mkFields [4, 3, 2] [1, 0, 1])) = [72] ∧
    decodeSchema [4, 3, 2] ⟨[72], 0⟩ = Except.ok ([1, 0, 1], ⟨[72], 5⟩) :=
  ⟨rfl, rfl⟩

/-- C6: Composite ordering / splice homomorphism — a composite of two
sub-values lays out each sub-value's bits as a contiguous, order-preserving
splice: its bitstream (before final byte padding) is exactly the
concatenation of the two sub-values' independent bit encodings, and the bits
of the packed bytes begin with that concatenation. -/
theorem composite_splice_homomorphism (a b : BitPackValue) :
    packBits (BitPackValue.composite (.cons a (.cons b .nil))) =
      packBits a ++ packBits b ∧
    (bytesToBits (pack_value (BitPackValue.composite
        (.cons a (.cons b .nil))))).take (packBits a ++ packBits b).length =
      packBits a ++ packBits b := by
  have h1 : packBits (BitPackValue.composite (.cons a (.cons b .nil))) =
      packBits a ++ packBits b := by
    simp [packBits, packBitsFields]
  refine ⟨h1, ?_⟩
  rw [bytesToBits_pack_value, h1, take_append_length _ _ _ rfl]

/-- C7: Collision-freedom (injectivity) within a schema — over a fixed flat
schema of domain sizes, any two legal assignments of field ordinals that
`pack_value` encodes to the same byte sequence are equal; distinct
combinations encode to distinct byte sequences. -/
theorem pack_value_injective_on_schema (ks vs₁ vs₂ : List Nat)
    (h1 : List.Forall₂ (fun v k => v < k) vs₁ ks)
    (h2 : List.Forall₂ (fun v k => v < k) vs₂ ks)
    (heq : pack_value (BitPackValue.composite (mkFields ks vs₁)) =
      pack_value (BitPackValue.composite (mkFields ks vs₂))) :
    vs₁ = vs₂ := by
  have hb1 : bytesToBits (pack_value (BitPackValue.composite (mkFields ks vs₁))) =
      packFieldBits ks vs₁ ++
        List.replicate ((8 - (packFieldBits ks vs₁).length % 8) % 8) false := by
    have hpb : packBits (BitPackValue.composite (mkFields ks vs₁)) =
        packFieldBits ks vs₁ := by
      rw [packBits, mkFields_packBits ks vs₁ h1.length_eq.symm]
    rw [bytesToBits_pack_value, hpb]
  have hb2 : bytesToBits (pack_value (BitPackValue.composite (mkFields ks vs₂))) =
      packFieldBits ks vs₂ ++
        List.replicate ((8 - (packFieldBits ks vs₂).length % 8) % 8) false := by
    have hpb : packBits (BitPackValue.composite (mkFields ks vs₂)) =
        packFieldBits ks vs₂ := by
      rw [packBits, mkFields_packBits ks vs₂ h2.length_eq.symm]
    rw [bytesToBits_pack_value, hpb]
  have r1 := decodeSchema_reads ks vs₁
    ⟨pack_value (BitPackValue.composite (mkFields ks vs₁)), 0⟩ _ h1
    (by simp) (by simpa using hb1)
  have r2 := decodeSchema_reads ks vs₂
    ⟨pack_value (BitPackValue.composite (mkFields ks vs₂)), 0⟩ _ h2
    (by simp) (by simpa using hb2)
  rw [heq] at r1
  have := r1.symm.trans r2
  simp only [Except.ok.injEq, Prod.mk.injEq] at this
  exact this.1

theorem pack_value_injective_on_schema_witness :
    List.Forall₂ (fun v k => v < k) [1, 0, 1] [4, 3, 2] ∧
    ([1, 0, 1] : List Nat) = [1, 0, 1] :=
  ⟨by decide,
    pack_value_injective_on_schema [4, 3, 2] [1, 0, 1] [1, 0, 1]
      (by decide) (by decide) rfl⟩

/-! ## Embedding of randovania/games/prime/patcher_file.py -/

/-- Modelled from the spec: the resource-type enumeration referenced by the
patcher-file helpers; the source only compares against `ITEM`, the other
variants stand for the remaining resource kinds. -/
inductive ResourceType where
  | ITEM
  | EVENT
  | TRICK
  | DAMAGE
  | MISC
deriving DecidableEq

/-- The fields of `SimpleResourceInfo` that the patcher-file helpers read. -/
structure SimpleResourceInfo where
  index : Nat
  long_name : String
  resource_type : ResourceType
deriving DecidableEq

/-- One conditional-resource record of a pickup. -/
structure ConditionalResources where
  item : SimpleResourceInfo
  resources : List (SimpleResourceInfo × Int)

/-- The fields of `PickupEntry` that the patcher-file helpers read. -/
structure PickupEntry where
  name : String
  model_index : Nat
  item_category : String
  resources : List (SimpleResourceInfo × Int)
  conditional_resources : List ConditionalResources

/-- A pickup index wraps a plain integer index. -/
structure PickupIndex where
  index : Nat
deriving DecidableEq

/-- An area location; the spawn-point field stores it verbatim. -/
structure AreaLocation where
  world_asset_id : Nat
  area_asset_id : Nat
deriving DecidableEq

/-- The fields of `GamePatches` that the patcher-file helpers read; the
pickup-assignment dictionary is modelled as its lookup function. -/
structure GamePatches where
  pickup_assignment : PickupIndex → Option PickupEntry
  extra_initial_items : List (SimpleResourceInfo × Int)
  starting_location : AreaLocation

/-- The field of `ResourceDatabase` that the patcher-file helpers read. -/
structure ResourceDatabase where
  item : List SimpleResourceInfo

/-- From patcher_file.py: for each `(resource, quantity)` in `gain`, if the
resource's type is `ITEM`, add the quantity to `target[resource]` (dicts are
modelled as lookup functions that default to 0 for absent keys, matching
`target.get(resource, 0)` over an initially empty dict). -/
def _add_items_in_resource_gain_to_dict
    (gain : List (SimpleResourceInfo × Int))
    (target : SimpleResourceInfo → Int) : SimpleResourceInfo → Int :=
  gain.foldl
    (fun t rq =>
      if rq.1.resource_type = ResourceType.ITEM then
        fun r => if r = rq.1 then t rq.1 + rq.2 else t r
      else t)
    target

/-- One `{"index": _, "amount": _}` entry of the spawn-point capacities. -/
structure CapacityEntry where
  index : Nat
  amount : Int
deriving DecidableEq

/-- The dictionary returned by `_create_spawn_point_field`. -/
structure SpawnPointField where
  location : AreaLocation
  amount : List CapacityEntry
  capacity : List CapacityEntry
deriving DecidableEq

/-- From patcher_file.py: build the item quantities from the extra initial
items, then one capacity entry per item of the resource database, and return
the spawn-point dictionary whose "amount" and "capacity" keys hold the same
capacities list ("location" holds the starting location's JSON form, modelled
by the location itself). -/
def _create_spawn_point_field (patches : GamePatches)
    (resource_database : ResourceDatabase) : SpawnPointField :=
  let item_quantities :=
    _add_items_in_resource_gain_to_dict patches.extra_initial_items
      (fun _ => 0)
  let capacities := resource_database.item.map
    (fun item => { index := item.index, amount := item_quantities item })
  { location := patches.starting_location
    amount := capacities
    capacity := capacities }

/-- From patcher_file.py: the category-to-jingle dictionary, as a
lookup-with-default-0 function. -/
def _item_category_to_jingle_index (category : String) : Nat :=
  if category = "major" then 1
  else if category = "translator" then 1
  else if category = "temple_key" then 2
  else if category = "sky_temple_key" then 2
  else 0

/-- From patcher_file.py: the scan text of a pickup. -/
def _pickup_scan (pickup : PickupEntry) : String :=
  if pickup.item_category ≠ "expansion" then pickup.name
  else
    pickup.name ++ " that provides " ++
      String.intercalate ", "
        (pickup.resources.map
          (fun rq => toString rq.2 ++ " " ++ rq.1.long_name))

/-- One `{"index": _, "amount": _}` entry of a pickup's resource list. -/
structure ResourceEntry where
  index : Nat
  amount : Int
deriving DecidableEq

/-- One entry of a pickup's conditional-resources list. -/
structure ConditionalResourcesDict where
  item : Nat
  resources : List ResourceEntry
deriving DecidableEq

/-- The dictionary built by `_create_pickup`. -/
structure PickupDict where
  pickup_index : Nat
  model_index : Nat
  scan : String
  hud_text : List String
  sound_index : Nat
  jingle_index : Nat
  resources : List ResourceEntry
  conditional_resources : List ConditionalResourcesDict
deriving DecidableEq

/-- From patcher_file.py: build the patcher dictionary for one pickup at one
index. -/
def _create_pickup (original_index : PickupIndex) (pickup : PickupEntry) :
    PickupDict :=
  let hud_text := (pickup.name ++ " acquired!") ::
    pickup.conditional_resources.map (fun _ => pickup.name ++ " acquired!")
  let conditional_resources := pickup.conditional_resources.map
    (fun conditional =>
      { item := conditional.item.index
        resources := (conditional.resources.filter
            (fun rq => decide (0 < rq.2) &&
              decide (rq.1.resource_type = ResourceType.ITEM))).map
          (fun rq => { index := rq.1.index, amount := rq.2 }) })
  { pickup_index := original_index.index
    model_index := pickup.model_index
    scan := _pickup_scan pickup
    hud_text := hud_text
    sound_index :=
      if pickup.item_category = "temple_key" ∨
          pickup.item_category = "sky_temple_key" then 1 else 0
    jingle_index := _item_category_to_jingle_index pickup.item_category
    resources := (pickup.resources.filter
        (fun rq => decide (0 < rq.2) &&
          decide (rq.1.resource_type = ResourceType.ITEM))).map
      (fun rq => { index := rq.1.index, amount := rq.2 })
    conditional_resources := conditional_resources }

/-- From patcher_file.py: one pickup dictionary per index in
`range pickup_count`, taking the assigned pickup when one exists and the
useless pickup otherwise. -/
def _create_pickup_list (patches : GamePatches) (useless_pickup : PickupEntry)
    (pickup_count : Nat) : List PickupDict :=
  let pickup_assignment := patches.pickup_assignment
  (List.range pickup_count).map
    (fun i => _create_pickup ⟨i⟩ ((pickup_assignment ⟨i⟩).getD useless_pickup))

/-- Modelled from the spec: the starting-location configuration enumeration;
the source only references `SHIP`, the other variants stand for the remaining
choices offered by the layout configuration. -/
inductive StartingLocationConfiguration where
  | SHIP
  | RANDOM_SAVE_STATION
  | CUSTOM
deriving DecidableEq

/-- Modelled from the spec: the starting-resources configuration enumeration;
the source only references `VANILLA_ITEM_LOSS_ENABLED`, the other variants
stand for the remaining choices. -/
inductive StartingResourcesConfiguration where
  | VANILLA_ITEM_LOSS_ENABLED
  | VANILLA_ITEM_LOSS_DISABLED
  | CUSTOM
deriving DecidableEq

/-- The field of `StartingLocation` that `is_vanilla_starting_location`
reads. -/
structure StartingLocation where
  configuration : StartingLocationConfiguration
deriving DecidableEq

/-- The field of `StartingResources` that `is_vanilla_starting_location`
reads. -/
structure StartingResources where
  configuration : StartingResourcesConfiguration
deriving DecidableEq

/-- The fields of `LayoutConfiguration` that `is_vanilla_starting_location`
reads. -/
structure LayoutConfiguration where
  starting_location : StartingLocation
  starting_resources : StartingResources
deriving DecidableEq

/-- From patcher_file.py: whether the configuration starts at the ship with
vanilla item-loss starting resources. -/
def is_vanilla_starting_location (configuration : LayoutConfiguration) : Bool :=
  let loc_config := configuration.starting_location.configuration
  let resource_config := configuration.starting_resources.configuration
  decide (loc_config = StartingLocationConfiguration.SHIP ∧
    resource_config = StartingResourcesConfiguration.VANILLA_ITEM_LOSS_ENABLED)

/-! ## Claims about the patcher-file helpers -/

/-- C8: `is_vanilla_starting_location` returns `True` exactly when the
starting-location configuration is `SHIP` and the starting-resources
configuration is `VANILLA_ITEM_LOSS_ENABLED`, and `False` for every other
combination (being a total function, it never raises on a well-formed
configuration). -/
theorem is_vanilla_starting_location_iff (configuration : LayoutConfiguration) :
    is_vanilla_starting_location configuration = true ↔
      (configuration.starting_location.configuration =
          StartingLocationConfiguration.SHIP ∧
        configuration.starting_resources.configuration =
          StartingResourcesConfiguration.VANILLA_ITEM_LOSS_ENABLED) := by
  simp [is_vanilla_starting_location]

/-- C9: `_create_pickup_list` returns exactly `pickup_count` pickup
dictionaries; the entry at position `i` is built by `_create_pickup` from
`PickupIndex i` and the pickup assigned to that index when one exists (the
useless pickup otherwise), and its "pickup_index" field equals `i`. -/
theorem create_pickup_list_spec (patches : GamePatches)
    (useless_pickup : PickupEntry) (pickup_count : Nat) :
    (_create_pickup_list patches useless_pickup pickup_count).length =
      pickup_count ∧
    ∀ i : Nat, i < pickup_count →
      (_create_pickup_list patches useless_pickup pickup_count)[i]? =
        some (_create_pickup ⟨i⟩
          ((patches.pickup_assignment ⟨i⟩).getD useless_pickup)) ∧
      Option.map PickupDict.pickup_index
          (_create_pickup_list patches useless_pickup pickup_count)[i]? =
        some i := by
  constructor
  · simp [_create_pickup_list]
  · intro i hi
    have hget : (_create_pickup_list patches useless_pickup pickup_count)[i]? =
        some (_create_pickup ⟨i⟩
          ((patches.pickup_assignment ⟨i⟩).getD useless_pickup)) := by
      rw [_create_pickup_list]
      rw [List.getElem?_map, List.getElem?_range hi]
      rfl
    refine ⟨hget, ?_⟩
    rw [hget]
    rfl

/-- A small concrete pickup used by the witness below. -/
def witnessPickupA : PickupEntry :=
  { name := "Missile Launcher", model_index := 3, item_category := "major",
    resources := [], conditional_resources := [] }

/-- A small concrete useless pickup used by the witness below. -/
def witnessUseless : PickupEntry :=
  { name := "Energy Transfer Module", model_index := 0,
    item_category := "etm", resources := [], conditional_resources := [] }

/-- Concrete game patches assigning a pickup to index 0 only. -/
def witnessPatches : GamePatches :=
  { pickup_assignment :=
      fun idx => if idx.index = 0 then some witnessPickupA else none,
    extra_initial_items := [],
    starting_location := { world_asset_id := 1, area_asset_id := 2 } }

theorem create_pickup_list_spec_witness :
    (1 : Nat) < 2 ∧
    ((_create_pickup_list witnessPatches witnessUseless 2)[1]? =
        some (_create_pickup ⟨1⟩
          ((witnessPatches.pickup_assignment ⟨1⟩).getD witnessUseless)) ∧
      Option.map PickupDict.pickup_index
          (_create_pickup_list witnessPatches witnessUseless 2)[1]? =
        some 1) :=
  ⟨by decide,
    (create_pickup_list_spec witnessPatches witnessUseless 2).2 1 (by decide)⟩

/-- The summed quantity of resource `r` over a resource gain, restricted to
entries whose resource type is `ITEM` — the sum the claim describes. -/
def itemGainSum (gain : List (SimpleResourceInfo × Int))
    (r : SimpleResourceInfo) : Int :=
  ((gain.filter (fun rq => decide (rq.1 = r) &&
      decide (rq.1.resource_type = ResourceType.ITEM))).map
    (fun rq => rq.2)).sum

theorem add_items_in_resource_gain_spec :
    ∀ (gain : List (SimpleResourceInfo × Int)) (t : SimpleResourceInfo → Int)
      (r : SimpleResourceInfo),
      _add_items_in_resource_gain_to_dict gain t r = t r + itemGainSum gain r := by
  intro gain
  induction gain with
  | nil =>
    intro t r
    simp [_add_items_in_resource_gain_to_dict, itemGainSum]
  | cons rq gain ih =>
    intro t r
    have hstep : _add_items_in_resource_gain_to_dict (rq :: gain) t =
        _add_items_in_resource_gain_to_dict gain
          (if rq.1.resource_type = ResourceType.ITEM then
            fun x => if x = rq.1 then t rq.1 + rq.2 else t x
          else t) := rfl
    rw [hstep, ih]
    by_cases hty : rq.1.resource_type = ResourceType.ITEM
    · by_cases hr : rq.1 = r
      · subst hr
        simp [itemGainSum, hty, List.filter_cons]
        omega
      · have hr' : ¬(r = rq.1) := fun h => hr h.symm
        simp [itemGainSum, hty, hr, hr', List.filter_cons]
    · simp [itemGainSum, hty, List.filter_cons]

/-- C10: in `_create_spawn_point_field` the "amount" and "capacity" fields
are the same list, with one entry per item of `resource_database.item` in
that order; each entry carries the item's index and the summed quantity of
that item over `patches.extra_initial_items` restricted to resources of type
`ITEM` (0 when the item is absent; non-ITEM resources never contribute). -/
theorem create_spawn_point_field_spec (patches : GamePatches)
    (resource_database : ResourceDatabase) :
    (_create_spawn_point_field patches resource_database).amount =
      (_create_spawn_point_field patches resource_database).capacity ∧
    (_create_spawn_point_field patches resource_database).amount =
      resource_database.item.map
        (fun item =>
          { index := item.index,
            amount := itemGainSum patches.extra_initial_items item }) := by
  constructor
  · rfl
  · rw [_create_spawn_point_field]
    simp only
    refine List.map_congr_left ?_
    intro item _
    rw [add_items_in_resource_gain_spec]
    simp

end Spec2Proof
